import Mathlib

/-!
Verification of the numerical Hessian pipeline of the MOT repository
(`mot/cl_routines/numerical_hessian.py` and
`mot/cl_routines/mapping/numerical_hessian.py`).

Floating-point scalars are modelled as `Option ℚ`, where `none` plays the
role of IEEE not-a-number (NaN): arithmetic propagates `none`, and ordered
comparisons involving `none` are false.  Device kernels (OpenCL strings built
by the Python code) are embedded as pure functions over these scalars; the
compile-time constants that the Python code bakes into the kernel source
(`MOT_EPSILON`, `MOT_MIN`, the Student-t error factor) are passed as explicit
rational parameters.
-/

/-- NaN-propagating addition (`none` = NaN). -/
def nAdd (x y : Option ℚ) : Option ℚ :=
  match x, y with
  | some a, some b => some (a + b)
  | _, _ => none

/-- NaN-propagating subtraction. -/
def nSub (x y : Option ℚ) : Option ℚ :=
  match x, y with
  | some a, some b => some (a - b)
  | _, _ => none

/-- NaN-propagating multiplication. -/
def nMul (x y : Option ℚ) : Option ℚ :=
  match x, y with
  | some a, some b => some (a * b)
  | _, _ => none

/-- NaN-propagating division; a zero divisor (where floats would produce
an infinity or NaN) is collapsed to `none`. -/
def nDiv (x y : Option ℚ) : Option ℚ :=
  match x, y with
  | some a, some b => if b = 0 then none else some (a / b)
  | _, _ => none

/-- NaN-propagating absolute value (`fabs`). -/
def nAbs (x : Option ℚ) : Option ℚ := x.map (fun a => |a|)

/-- NaN-propagating binary maximum. -/
def nMax (x y : Option ℚ) : Option ℚ :=
  match x, y with
  | some a, some b => some (max a b)
  | _, _ => none

/-- Multiplication by a known rational constant (NaN-propagating). -/
def nCMul (c : ℚ) (x : Option ℚ) : Option ℚ := x.map (fun a => c * a)

/-- Division by a known rational constant (NaN-propagating). -/
def nCDiv (x : Option ℚ) (c : ℚ) : Option ℚ := x.map (fun a => a / c)

/-- Strict less-than; false whenever either side is NaN, as for floats. -/
def nLt (x y : Option ℚ) : Bool :=
  match x, y with
  | some a, some b => decide (a < b)
  | _, _ => false

/-- Non-strict less-or-equal; false whenever either side is NaN. -/
def nLe (x y : Option ℚ) : Bool :=
  match x, y with
  | some a, some b => decide (a ≤ b)
  | _, _ => false

/-- Numpy-style product of a boolean array with a float array
(`outliers * np.abs(...)`): a false flag gives `0.0`, but `0.0 * NaN`
is still NaN, so `none` is preserved either way. -/
def nBoolMul (b : Bool) (x : Option ℚ) : Option ℚ :=
  x.map (fun a => if b then a else 0)

/-- Insert a rational into an already sorted list (ascending). -/
def insortQ (x : ℚ) : List ℚ → List ℚ
  | [] => [x]
  | y :: ys => if x ≤ y then x :: y :: ys else y :: insortQ x ys

/-- The finite (non-NaN) entries of a float list, in ascending order. -/
def sortFinite (l : List (Option ℚ)) : List ℚ :=
  (l.filterMap id).foldr insortQ []

/-- Linear-interpolation percentile of a sorted nonempty list, as computed by
`np.percentile` with the default interpolation mode. -/
def percentileOfSorted (q : ℚ) (s : List ℚ) : ℚ :=
  let m := s.length
  let pos := q * (m - 1 : ℚ) / 100
  let i := (Int.floor pos).toNat
  let frac := pos - (i : ℚ)
  let a := s.getD i 0
  let b := s.getD (min (i + 1) (m - 1)) 0
  a + frac * (b - a)

/-- `np.nanpercentile`: the percentile of the non-NaN entries, NaN when the
whole row is NaN. -/
def nanpercentile (q : ℚ) (l : List (Option ℚ)) : Option ℚ :=
  let s := sortFinite l
  if s.isEmpty then none else some (percentileOfSorted q s)

/-- Minimum of a rational list, `none` when empty. -/
def qListMin : List ℚ → Option ℚ
  | [] => none
  | x :: xs => some (xs.foldl min x)

/-- First index of the list satisfying the predicate. -/
def findFirst (p : Option ℚ → Bool) : List (Option ℚ) → Option ℕ
  | [] => none
  | x :: xs => if p x then some 0 else (findFirst p xs).map (· + 1)

/-- `np.nanargmin` along a row: the first index holding the minimum of the
non-NaN entries; `none` models the `ValueError` raised on an all-NaN row. -/
def nanargmin (l : List (Option ℚ)) : Option ℕ :=
  match qListMin (l.filterMap id) with
  | none => none
  | some m => findFirst (fun x => decide (x = some m)) l

/-- The bounds/scaling information the model supplies through the
`NumericalDerivativeInterface` accessors, one entry per parameter. -/
structure NumDiffModel where
  use_bounds : ℕ → Bool
  use_lower : ℕ → Bool
  use_upper : ℕ → Bool
  max_step : ℕ → ℚ
  scaling : ℕ → ℚ

/-- Embeds `_get_initial_step_size` for one problem instance `i` and one
parameter `ind`; `params i ind` is `parameters[i, ind]` and the bounds are
indexed as `lower ind i` (each bound may be a scalar or a per-problem
vector in the source, which broadcasts to exactly this form). -/
def get_initial_step_size (m : NumDiffModel) (params : ℕ → ℕ → ℚ)
    (lower upper : ℕ → ℕ → ℚ) (i ind : ℕ) : ℚ :=
  if m.use_bounds ind then
    let minimum_allowed_step :=
      if m.use_upper ind && !(m.use_lower ind) then
        |upper ind i - params i ind| * m.scaling ind
      else if m.use_lower ind && !(m.use_upper ind) then
        |params i ind - lower ind i| * m.scaling ind
      else
        min (|params i ind - lower ind i|) (|upper ind i - params i ind|) * m.scaling ind
    min minimum_allowed_step (m.max_step ind)
  else m.max_step ind

/-- Follows the words of the specification (step generator): the initial step
is `min(model_max_step, bound_clearance * scaling)` where the clearance uses
the active side, or the minimum of both distances when both sides are active,
and when no bound is active the step is `model_max_step` unclipped.  This is
the comparison definition for the refinement claim about step sizes. -/
def spec_initial_step_size (m : NumDiffModel) (params : ℕ → ℕ → ℚ)
    (lower upper : ℕ → ℕ → ℚ) (i ind : ℕ) : ℚ :=
  if m.use_bounds ind && m.use_upper ind && !(m.use_lower ind) then
    min (m.max_step ind) (|upper ind i - params i ind| * m.scaling ind)
  else if m.use_bounds ind && m.use_lower ind && !(m.use_upper ind) then
    min (m.max_step ind) (|params i ind - lower ind i| * m.scaling ind)
  else if m.use_bounds ind && m.use_lower ind && m.use_upper ind then
    min (m.max_step ind)
      (min (|params i ind - lower ind i|) (|upper ind i - params i ind|) * m.scaling ind)
  else m.max_step ind

/-- The amended step-size specification: like `spec_initial_step_size`,
except that when the use-bounds flag is set while neither side flag is, the
step is still clipped by the two-sided minimum distance (exactly as when both
sides are active), matching the code's `else` branch; `max_step` is returned
unclipped only when the use-bounds flag itself is false. -/
def amended_initial_step_size (m : NumDiffModel) (params : ℕ → ℕ → ℚ)
    (lower upper : ℕ → ℕ → ℚ) (i ind : ℕ) : ℚ :=
  if !(m.use_bounds ind) then m.max_step ind
  else if m.use_upper ind && !(m.use_lower ind) then
    min (m.max_step ind) (|upper ind i - params i ind| * m.scaling ind)
  else if m.use_lower ind && !(m.use_upper ind) then
    min (m.max_step ind) (|params i ind - lower ind i| * m.scaling ind)
  else
    min (m.max_step ind)
      (min (|params i ind - lower ind i|) (|upper ind i - params i ind|) * m.scaling ind)

/-- Rows of the lower-triangular coordinate enumeration starting at row `x`,
with `k` rows remaining; row `x` lists the pairs `(x, y)` for `x ≤ y < n`.
`coordsAux n 0 n` reproduces
`itertools.combinations_with_replacement(range(n), 2)` in order, which is the
`coords` table of `_derivation_kernel` and also the order in which
`_results_vector_to_matrix` consumes the result vector. -/
def coordsAux (n : ℕ) : ℕ → ℕ → List (ℕ × ℕ)
  | _, 0 => []
  | x, k + 1 => ((List.range' x (n - x)).map (fun y => (x, y))) ++ coordsAux n (x + 1) k

/-- The full lower-triangular coordinate list of `_derivation_kernel`. -/
def coordsList (n : ℕ) : List (ℕ × ℕ) := coordsAux n 0 n

/-- Index of the first occurrence of a pair in a coordinate list. -/
def idxOf : List (ℕ × ℕ) → (ℕ × ℕ) → ℕ
  | [], _ => 0
  | c :: rest, p => if c = p then 0 else idxOf rest p + 1

/-- Packing of an unordered parameter pair into the linear derivative index:
the position of the ordered pair in the kernel's coordinate enumeration. -/
def packPair (n px py : ℕ) : ℕ := idxOf (coordsList n) (min px py, max px py)

/-- Unpacking of a linear derivative index back to the ordered pair. -/
def unpackPair (n k : ℕ) : Option (ℕ × ℕ) := (coordsList n).get? k

/-- A square matrix of float scalars, as a total function on indices. -/
def setMat (M : ℕ → ℕ → Option ℚ) (i j : ℕ) (x : Option ℚ) : ℕ → ℕ → Option ℚ :=
  fun a b => if a = i ∧ b = j then x else M a b

/-- Inner loop of `_results_vector_to_matrix`: for row `px`, writes the
off-diagonal entries `(px, py)` and `(py, px)` from the same vector cell,
for `k` remaining column indices starting at `py`, threading the running
lower-triangular index `ltr`. -/
def vecToMatRow (v : ℕ → Option ℚ) (px : ℕ) :
    ℕ → ℕ → ℕ → (ℕ → ℕ → Option ℚ) → ℕ × (ℕ → ℕ → Option ℚ)
  | 0, _, ltr, M => (ltr, M)
  | k + 1, py, ltr, M =>
      vecToMatRow v px k (py + 1) (ltr + 1) (setMat (setMat M px py (v ltr)) py px (v ltr))

/-- Outer loop of `_results_vector_to_matrix`: for `k` remaining rows starting
at `px`, writes the diagonal entry and then the off-diagonal row. -/
def vecToMatAll (v : ℕ → Option ℚ) (n : ℕ) :
    ℕ → ℕ → ℕ → (ℕ → ℕ → Option ℚ) → (ℕ → ℕ → Option ℚ)
  | 0, _, _, M => M
  | k + 1, px, ltr, M =>
      let M1 := setMat M px px (v ltr)
      let res := vecToMatRow v px (n - (px + 1)) (px + 1) (ltr + 1) M1
      vecToMatAll v n k (px + 1) res.1 res.2

/-- Embeds `_results_vector_to_matrix` for one problem instance: the result
vector `v` of lower-triangular entries is unfolded into a square matrix,
starting from the `np.zeros` matrix. -/
def results_vector_to_matrix (v : ℕ → Option ℚ) (n : ℕ) : ℕ → ℕ → Option ℚ :=
  vecToMatAll v n n 0 0 (fun _ _ => some 0)

/-- Embeds the `finalize_derivatives` closure of `numerical_hessian`: convert
the vector of lower-triangular results to a matrix and rescale it by the outer
product of the parameter scaling factors. -/
def finalize_derivatives (scalings : ℕ → ℚ) (n : ℕ) (v : ℕ → Option ℚ) :
    ℕ → ℕ → Option ℚ :=
  fun i j => nMul (results_vector_to_matrix v n i j) (some (scalings i * scalings j))

/-- Embeds `_get_richardson_coefficients`.  The source computes the first row
of `scipy.linalg.pinv` of the square matrix `r_mat` with
`r_mat[i, k] = ((1/step_ratio)^(2 i))^k`, a Vandermonde matrix with nodes
`(1/step_ratio)^(2 i)`; for the distinct nodes arising from a step ratio
greater than one the pseudoinverse is the inverse, whose first row consists
of the Lagrange basis polynomials of the nodes evaluated at zero. -/
def get_richardson_coefficients (r : ℚ) (nmr_extrapolations : ℕ) : List ℚ :=
  if nmr_extrapolations = 0 then [1]
  else
    let nodes := (List.range (nmr_extrapolations + 1)).map (fun i => (1 / r) ^ (2 * i))
    (List.range (nmr_extrapolations + 1)).map (fun j =>
      (List.range (nmr_extrapolations + 1)).foldl
        (fun acc mm =>
          if mm = j then acc
          else acc * ((0 - nodes.getD mm 0) / (nodes.getD j 0 - nodes.getD mm 0)))
        1)

/-- The boundary reflection of `_apply_richardson_convolution`: an index at or
beyond `nmr_steps` is mirrored back by `ind -= 2 * (ind - nmr_steps) + 1`. -/
def reflectIdx (nmr_steps i : ℕ) : ℕ :=
  if nmr_steps ≤ i then 2 * nmr_steps - i - 1 else i

/-- One output cell of `_apply_richardson_convolution`: the convolution of the
step sequence with the Richardson coefficients, accumulated from the `Zeros`
initialisation. -/
def richardsonConvCell (nmr_steps : ℕ) (coeffs : List ℚ) (row : ℕ → Option ℚ)
    (step_ind : ℕ) : Option ℚ :=
  (List.range coeffs.length).foldl
    (fun acc kernel_ind =>
      nAdd acc (nCMul (coeffs.getD kernel_ind 0) (row (reflectIdx nmr_steps (step_ind + kernel_ind)))))
    (some 0)

/-- One output cell of `_compute_richardson_errors` (index below
`nmr_convolutions - 1`): a tolerance-gated error estimate combining adjacent
extrapolations and the raw tail derivatives.  `fact` is the Student-t
constant baked into the kernel source and `eps` is `MOT_EPSILON`. -/
def richardsonErrCell (nmr_steps nmr_convolutions : ℕ) (fact eps : ℚ)
    (row : ℕ → Option ℚ) (extrapolations : List (Option ℚ)) (conv_ind : ℕ) : Option ℚ :=
  let tolerance :=
    nCMul (eps * fact)
      (nMax (nAbs (extrapolations.getD (conv_ind + 1) none))
            (nAbs (extrapolations.getD conv_ind none)))
  let err :=
    nCMul fact (nAbs (nSub (extrapolations.getD conv_ind none)
                           (extrapolations.getD (conv_ind + 1) none)))
  if nLe err tolerance then nAdd err (nCMul 10 tolerance)
  else
    nAdd err
      (nCMul fact
        (nAbs (nSub (extrapolations.getD conv_ind none)
                    (row (nmr_steps - nmr_convolutions + 1 + conv_ind)))))

/-- Embeds `_richardson_extrapolation` together with the kernel it launches
(`_apply_richardson_convolution` and `_compute_richardson_errors`) for one
(problem, derivative-index) row `row` of length `nmr_steps`; returns the
extrapolated candidates (sliced to `final_nmr_convolutions`) and the error
estimates. -/
def richardson_extrapolation (r fact eps : ℚ) (nmr_steps : ℕ) (row : ℕ → Option ℚ) :
    List (Option ℚ) × List (Option ℚ) :=
  let coeffs := get_richardson_coefficients r (min nmr_steps 3 - 1)
  let nmr_convolutions_needed := nmr_steps - (coeffs.length - 2)
  let final_nmr_convolutions := nmr_convolutions_needed - 1
  let extrapolations :=
    (List.range nmr_convolutions_needed).map (richardsonConvCell nmr_steps coeffs row)
  let errs :=
    (List.range final_nmr_convolutions).map
      (richardsonErrCell nmr_steps nmr_convolutions_needed fact eps row extrapolations)
  (extrapolations.take final_nmr_convolutions, errs)

/-- One output cell of the `_wynn_extrapolation_kernel`: the epsilon-algorithm
step on the consecutive triple starting at `i`, returning the accelerated
value and its error estimate.  `eps` is `MOT_EPSILON` and `tiny` is
`MOT_MIN`. -/
def wynnCell (eps tiny : ℚ) (derivs : List (Option ℚ)) (i : ℕ) :
    Option ℚ × Option ℚ :=
  let v0 := derivs.getD i none
  let v1 := derivs.getD (i + 1) none
  let v2 := derivs.getD (i + 2) none
  let delta0 := nSub v1 v0
  let delta1 := nSub v2 v1
  let err0 := nAbs delta0
  let err1 := nAbs delta1
  let tol0 := nCMul eps (nMax (nAbs v0) (nAbs v1))
  let tol1 := nCMul eps (nMax (nAbs v1) (nAbs v2))
  let delta0g := if nLt err0 (some tiny) then some tiny else delta0
  let delta1g := if nLt err1 (some tiny) then some tiny else delta1
  let ss := nAdd (nSub (nDiv (some 1) delta1g) (nDiv (some 1) delta0g)) (some tiny)
  let converged := (nLe err0 tol0 && nLe err1 tol1) || nLe (nAbs (nMul ss v1)) (some (1 / 1000))
  let result := if converged then v2 else nAdd v1 (nDiv (some 1) ss)
  (result,
   nAdd (nAdd err0 err1) (if converged then nCMul 10 tol1 else nAbs (nSub result v2)))

/-- Embeds `_wynn_extrapolate` and its kernel for one row: every consecutive
triple of candidates is accelerated, giving `n - 2` outputs with matching
error estimates. -/
def wynn_extrapolate (eps tiny : ℚ) (derivs : List (Option ℚ)) :
    List (Option ℚ) × List (Option ℚ) :=
  let cells := (List.range (derivs.length - 2)).map (wynnCell eps tiny derivs)
  (cells.map Prod.fst, cells.map Prod.snd)

/-- True when every error candidate of a row is NaN: the rows selected by
`np.where(np.sum(np.isnan(errors), axis=2) == errors.shape[2])`. -/
def all_nan_row (es : List (Option ℚ)) : Bool := es.all Option.isNone

/-- Embeds the inner `_get_median_outliers_errors` of
`_median_outlier_extrapolation` for one row of derivative candidates, with
the default `trim_fact = 10`: candidates whose magnitude differs from the
median magnitude by more than the trimming factor (when that magnitude
exceeds `1e-8`), or that fall outside `median ± 1.5 * IQR`, receive the
penalty `|candidate - median|`; numpy's boolean-float product keeps NaN
candidates NaN. -/
def median_outlier_errors_row (der : List (Option ℚ)) : List (Option ℚ) :=
  let p25 := nanpercentile 25 der
  let median := nanpercentile 50 der
  let p75 := nanpercentile 75 der
  let iqr := nAbs (nSub p75 p25)
  let a_median := nAbs median
  der.map (fun d =>
    let outlier :=
      ((nLt (nAbs d) (nCDiv a_median 10) || nLt (nCMul 10 a_median) (nAbs d))
          && nLt (some (1 / 100000000)) a_median)
        || (nLt d (nSub p25 (nCMul (3 / 2) iqr)) || nLt (nAdd p75 (nCMul (3 / 2) iqr)) d)
    nBoolMul outlier (nAbs (nSub d median)))

/-- The arrays produced by `_median_outlier_extrapolation`: the post-call
states of the two arrays the function mutates in place, and the selected
final derivative and error per (problem, derivative-index) entry. -/
structure SelectorResult where
  derivsPost : ℕ → ℕ → List (Option ℚ)
  errorsPost : ℕ → ℕ → List (Option ℚ)
  derivsFinal : ℕ → ℕ → Option ℚ
  errorsFinal : ℕ → ℕ → Option ℚ

/-- The in-place state of the derivatives array after the all-NaN sentinel
forcing step of `_median_outlier_extrapolation`
(`derivatives[all_nan[0], all_nan[1], 0] = 0`). -/
def selector_derivs1 (derivatives errors : ℕ → ℕ → List (Option ℚ)) (i j : ℕ) :
    List (Option ℚ) :=
  if all_nan_row (errors i j) then (derivatives i j).set 0 (some 0) else derivatives i j

/-- The in-place state of the errors array after the all-NaN sentinel forcing
step and the `errors += _get_median_outliers_errors(derivatives)` update of
`_median_outlier_extrapolation`. -/
def selector_errors2 (derivatives errors : ℕ → ℕ → List (Option ℚ)) (i j : ℕ) :
    List (Option ℚ) :=
  List.zipWith nAdd
    (if all_nan_row (errors i j) then (errors i j).set 0 (some 0) else errors i j)
    (median_outlier_errors_row (selector_derivs1 derivatives errors i j))

/-- Embeds `_median_outlier_extrapolation` over a `nP × nD` array of candidate
rows.  Rows whose errors are all NaN first get their first error and first
derivative forced to `0`; the outlier penalties are added to the errors in
place; `np.nanargmin` picks the per-row minimum (the function returns `none`
when some in-range row has only NaN penalized errors, where numpy raises
`ValueError`); finally the all-NaN rows are restored to NaN in the selected
output. -/
def median_outlier_extrapolation (nP nD : ℕ)
    (derivatives errors : ℕ → ℕ → List (Option ℚ)) : Option SelectorResult :=
  if (List.range nP).all (fun i => (List.range nD).all
      (fun j => (nanargmin (selector_errors2 derivatives errors i j)).isSome))
  then
    some
      { derivsPost := selector_derivs1 derivatives errors
        errorsPost := selector_errors2 derivatives errors
        derivsFinal := fun i j =>
          if all_nan_row (errors i j) then none
          else
            match nanargmin (selector_errors2 derivatives errors i j) with
            | some k => (selector_derivs1 derivatives errors i j).getD k none
            | none => none
        errorsFinal := fun i j =>
          if all_nan_row (errors i j) then none
          else
            match nanargmin (selector_errors2 derivatives errors i j) with
            | some k => (selector_errors2 derivatives errors i j).getD k none
            | none => none }
  else none

/-- Embeds the `_eval_step` device function: copy the parameter vector,
add the two perturbations in sequence, apply the model's parameter
transformation and evaluate the objective. -/
def evalStep (f : List ℚ → Option ℚ) (transform : List ℚ → List ℚ)
    (x : List ℚ) (d0 : ℕ) (p0 : ℚ) (d1 : ℕ) (p1 : ℚ) : Option ℚ :=
  let y := x.set d0 (x.getD d0 0 + p0)
  let z := y.set d1 (y.getD d1 0 + p1)
  f (transform z)

/-- Embeds `_compute_steps` for one Hessian element `(px, py)` at one step
index: the diagonal two-point or off-diagonal four-point central difference
at steps diminishing by the ratio `r`. -/
def compute_steps (f : List ℚ → Option ℚ) (transform : List ℚ → List ℚ)
    (x : List ℚ) (f_x_input : Option ℚ) (px py : ℕ)
    (scalings_inv initial_step : ℕ → ℚ) (r : ℚ) (step_ind : ℕ) : Option ℚ :=
  if px = py then
    let step_x := initial_step px / r ^ step_ind
    nDiv
      (nSub
        (nAdd (evalStep f transform x px (2 * (step_x * scalings_inv px)) 0 0)
              (evalStep f transform x px (-2 * (step_x * scalings_inv px)) 0 0))
        (nCMul 2 f_x_input))
      (some (4 * step_x * step_x))
  else
    let step_x := initial_step px / r ^ step_ind
    let step_y := initial_step py / r ^ step_ind
    nDiv
      (nAdd
        (nSub
          (nSub (evalStep f transform x px (step_x * scalings_inv px) py (step_y * scalings_inv py))
                (evalStep f transform x px (step_x * scalings_inv px) py (-(step_y * scalings_inv py))))
          (evalStep f transform x px (-(step_x * scalings_inv px)) py (step_y * scalings_inv py)))
        (evalStep f transform x px (-(step_x * scalings_inv px)) py (-(step_y * scalings_inv py))))
      (some (4 * step_x * step_y))

/-- Embeds `_compute_derivatives` together with `_derivation_kernel`: the raw
derivative tensor, indexed by problem, lower-triangular derivative index and
step index.  The initial step per parameter comes from
`_get_initial_step_size`, pre-shrunk by `step_ratio ** -step_offset` when a
nonzero step offset is given (Python's `if step_offset:`). -/
def compute_derivatives (f : List ℚ → Option ℚ) (transform : List ℚ → List ℚ)
    (m : NumDiffModel) (P : List (List ℚ)) (lower upper : ℕ → ℕ → ℚ)
    (r : ℚ) (offset : Option ℕ) : ℕ → ℕ → ℕ → Option ℚ :=
  fun p d s =>
    let nmr_params := (P.headD []).length
    let x := P.getD p []
    let initial_step := fun ind =>
      let base := get_initial_step_size m (fun i2 ind2 => (P.getD i2 []).getD ind2 0)
        lower upper p ind
      match offset with
      | some o => if o ≠ 0 then base * (1 / r) ^ o else base
      | none => base
    let c := (coordsList nmr_params).getD d (0, 0)
    let f_x_input := f x
    compute_steps f transform x f_x_input c.1 c.2
      (fun ind => 1 / m.scaling ind) initial_step r s

/-- Embeds the extrapolation part of `numerical_hessian` (everything after
`_compute_derivatives` returns the raw tensor `D`): the `nmr_steps == 1`
early return, the Richardson pass with its `nmr_steps <= 3` early return, the
single conditional Wynn pass, the singleton early return, and the median
outlier selection; the result is the finalized Hessian per problem, `none`
when the selector raises. -/
def numericalHessianPost (nP nD nmr_steps : ℕ) (r fact eps tiny : ℚ)
    (D : ℕ → ℕ → ℕ → Option ℚ) (scalings : ℕ → ℚ) (nmr_params : ℕ) :
    Option (ℕ → ℕ → ℕ → Option ℚ) :=
  if nmr_steps = 1 then
    some (fun p => finalize_derivatives scalings nmr_params (fun d => D p d 0))
  else
    let rich := fun p d => richardson_extrapolation r fact eps nmr_steps (fun s => D p d s)
    if nmr_steps ≤ 3 then
      some (fun p => finalize_derivatives scalings nmr_params (fun d => (rich p d).1.getD 0 none))
    else
      let doWynn := decide (2 < (rich 0 0).1.length)
      let curD := fun p d => if doWynn then (wynn_extrapolate eps tiny (rich p d).1).1 else (rich p d).1
      let curE := fun p d => if doWynn then (wynn_extrapolate eps tiny (rich p d).1).2 else (rich p d).2
      if (curD 0 0).length = 1 then
        some (fun p => finalize_derivatives scalings nmr_params (fun d => (curD p d).getD 0 none))
      else
        match median_outlier_extrapolation nP nD curD curE with
        | some res => some (fun p => finalize_derivatives scalings nmr_params (fun d => res.derivsFinal p d))
        | none => none

/-- The array of derivative candidates that reaches
`_median_outlier_extrapolation` in `numerical_hessian`, replicating the
branch structure of `numericalHessianPost`; `none` when one of the early
returns fires and the selector is never reached. -/
def selector_input (nmr_steps : ℕ) (r fact eps tiny : ℚ)
    (D : ℕ → ℕ → ℕ → Option ℚ) : Option (ℕ → ℕ → List (Option ℚ)) :=
  if nmr_steps = 1 then none
  else
    let rich := fun p d => richardson_extrapolation r fact eps nmr_steps (fun s => D p d s)
    if nmr_steps ≤ 3 then none
    else
      let doWynn := decide (2 < (rich 0 0).1.length)
      let curD := fun p d => if doWynn then (wynn_extrapolate eps tiny (rich p d).1).1 else (rich p d).1
      if (curD 0 0).length = 1 then none else some curD

/-- The number of lower-triangular Hessian elements,
`(nmr_params ** 2 - nmr_params) // 2 + nmr_params`. -/
def nmrDerivatives (nmr_params : ℕ) : ℕ := (nmr_params ^ 2 - nmr_params) / 2 + nmr_params

/-- The reshaping prologue of `numerical_hessian`: a 1-dimensional parameter
array (`len(parameters.shape) == 1`) becomes the single row of a
one-problem matrix via `parameters[None, :]`. -/
def normalized_parameters (parameters : List ℚ ⊕ List (List ℚ)) : List (List ℚ) :=
  match parameters with
  | Sum.inl v => [v]
  | Sum.inr M => M

/-- Embeds `numerical_hessian`: a 1-dimensional parameter array is reshaped to
one problem row, the raw derivative tensor is computed by the device kernel,
and the extrapolation pipeline produces the final Hessians. -/
def numerical_hessian (f : List ℚ → Option ℚ) (transform : List ℚ → List ℚ)
    (m : NumDiffModel) (lower upper : ℕ → ℕ → ℚ)
    (parameters : List ℚ ⊕ List (List ℚ)) (r : ℚ) (nmr_steps : ℕ)
    (offset : Option ℕ) (fact eps tiny : ℚ) : Option (ℕ → ℕ → ℕ → Option ℚ) :=
  let P := normalized_parameters parameters
  let nmr_params := (P.headD []).length
  let D := compute_derivatives f transform m P lower upper r offset
  numericalHessianPost P.length (nmrDerivatives nmr_params) nmr_steps r fact eps tiny
    D m.scaling nmr_params

/-- Column `c` of a candidates-by-entries error matrix (the layout used by
the host-side `Extrapolate` helper copied from numdifftools). -/
def errColumn (errs : List (List (Option ℚ))) (c : ℕ) : List (Option ℚ) :=
  errs.map (fun row => row.getD c none)

/-- The indices of a column that attain the value `mval` exactly
(`np.flatnonzero(errors[:, i] == min_error)`). -/
def minIndices (col : List (Option ℚ)) (mval : ℚ) : List ℕ :=
  (List.range col.length).filter (fun i2 => decide (col.getD i2 none = some mval))

/-- Embeds `Extrapolate._get_arg_min` from the mapping variant
(`mot/cl_routines/mapping/numerical_hessian.py`): per entry column, the flat
index of the middle element of the list of candidates attaining the minimum
error; when some column is all NaN the `ValueError` fallback returns
`np.arange(ncols)`. -/
def get_arg_min (errs : List (List (Option ℚ))) (ncols : ℕ) : List ℕ :=
  if (List.range ncols).any (fun c => (nanargmin (errColumn errs c)).isNone) then
    List.range ncols
  else
    (List.range ncols).map (fun c =>
      match qListMin ((errColumn errs c).filterMap id) with
      | none => 0
      | some mval =>
        let idx := minIndices (errColumn errs c) mval
        (idx.getD (idx.length / 2) 0) * ncols + c)

/-- Embeds `_initial_point_within_bounds` of the mapping-variant kernel: the
bound-check function is applied with a zero step to the entries of the input
point.  Note the source loops `param_ind` up to `nmr_steps`, not
`nmr_params`. -/
def initial_point_within_bounds (bound_check : ℚ → ℚ → ℕ → Bool)
    (x : ℕ → ℚ) (nmr_steps : ℕ) : Bool :=
  (List.range nmr_steps).all (fun param_ind => bound_check (x param_ind) 0 param_ind)

/-- Pointwise update of a step-size matrix indexed `(step_ind, param_ind)`. -/
def setStep (st : ℕ → ℕ → ℚ) (a b : ℕ) (v : ℚ) : ℕ → ℕ → ℚ :=
  fun a2 b2 => if a2 = a ∧ b2 = b then v else st a2 b2

/-- The halving loop of `_generate_grid_points` for one parameter `p`: `k`
iterations remain; on an admissible step the first-row step size is written
and the found flag set, otherwise the candidate step is halved.  Returns the
final candidate step, the flag and the updated step matrix. -/
def grid_halving (bound_check : ℚ → ℚ → ℕ → Bool) (xp scalp : ℚ) (p : ℕ) :
    ℕ → ℚ → Bool → (ℕ → ℕ → ℚ) → ℚ × Bool × (ℕ → ℕ → ℚ)
  | 0, first_step, found, st => (first_step, found, st)
  | k + 1, first_step, found, st =>
      if bound_check xp (first_step / scalp) p then
        grid_halving bound_check xp scalp p k first_step true (setStep st 0 p first_step)
      else
        grid_halving bound_check xp scalp p k (first_step / 2) found st

/-- The parameter loop of `_generate_grid_points`: for each parameter, run
ten halving iterations starting from the model's maximum step, fail when the
found flag is unset, then fill the remaining geometrically shrinking steps
from the final candidate step.  The found flag is declared once, initialised
to true, and threaded across parameters exactly as in the source. -/
def grid_params (bound_check : ℚ → ℚ → ℕ → Bool) (x scal maxs : ℕ → ℚ)
    (r : ℚ) (nmr_params nmr_steps : ℕ) :
    List ℕ → Bool → (ℕ → ℕ → ℚ) → Bool × (ℕ → ℕ → ℚ)
  | [], _, st => (true, st)
  | p :: rest, found, st =>
      let h := grid_halving bound_check (x p) (scal p) p 10 (maxs p) found st
      if !h.2.1 then (false, h.2.2)
      else
        let st2 := (List.range' 1 (nmr_steps - 1)).foldl
          (fun acc step_ind => setStep acc step_ind p (h.1 / r ^ step_ind)) h.2.2
        grid_params bound_check x scal maxs r nmr_params nmr_steps rest h.2.1 st2

/-- Embeds `_generate_grid_points` of the mapping-variant kernel, acting on
the host-initialised all-zero step matrix state `st0`. -/
def generate_grid_points (bound_check : ℚ → ℚ → ℕ → Bool) (x scal maxs : ℕ → ℚ)
    (r : ℚ) (nmr_params nmr_steps : ℕ) (st0 : ℕ → ℕ → ℚ) : Bool × (ℕ → ℕ → ℚ) :=
  grid_params bound_check x scal maxs r nmr_params nmr_steps (List.range nmr_params) true st0

theorem coordsAux_mem {n : ℕ} :
    ∀ (k x : ℕ) (p : ℕ × ℕ), p ∈ coordsAux n x k ↔
      x ≤ p.1 ∧ p.1 < x + k ∧ p.1 ≤ p.2 ∧ p.2 < n := by
  intro k
  induction k with
  | zero => intro x p; simp [coordsAux]; omega
  | succ k ih =>
    intro x p
    obtain ⟨p1, p2⟩ := p
    simp only [coordsAux, List.mem_append, List.mem_map, List.mem_range'_1,
      ih (x + 1) (p1, p2)]
    constructor
    · rintro (⟨y, ⟨hy1, hy2⟩, he⟩ | ⟨h1, h2, h3, h4⟩)
      · obtain ⟨rfl, rfl⟩ := Prod.mk.injEq .. ▸ he
        refine ⟨by omega, by omega, by omega, by omega⟩
      · exact ⟨by omega, by omega, h3, h4⟩
    · rintro ⟨h1, h2, h3, h4⟩
      rcases Nat.eq_or_lt_of_le h1 with h | h
      · subst h; left; exact ⟨p2, ⟨by omega, by omega⟩, rfl⟩
      · right; exact ⟨by omega, by omega, h3, h4⟩

theorem coordsAux_nodup {n : ℕ} : ∀ (k x : ℕ), (coordsAux n x k).Nodup := by
  intro k
  induction k with
  | zero => intro x; simp [coordsAux]
  | succ k ih =>
    intro x
    rw [coordsAux, List.nodup_append]
    refine ⟨?_, ih (x + 1), ?_⟩
    · refine List.Nodup.map ?_ (List.nodup_range' x (n - x) 1 Nat.one_pos)
      intro a b h
      injection h
    · intro p hp hp2
      rcases List.mem_map.mp hp with ⟨y, _, rfl⟩
      have := (coordsAux_mem k (x + 1) (x, y)).mp hp2
      omega

theorem coordsList_mem {n : ℕ} (p : ℕ × ℕ) :
    p ∈ coordsList n ↔ p.1 ≤ p.2 ∧ p.2 < n := by
  rw [coordsList, coordsAux_mem]
  constructor
  · rintro ⟨_, _, h3, h4⟩; exact ⟨h3, h4⟩
  · rintro ⟨h3, h4⟩; exact ⟨Nat.zero_le _, by omega, h3, h4⟩

theorem coordsList_nodup (n : ℕ) : (coordsList n).Nodup := coordsAux_nodup n 0

theorem idxOf_get? {l : List (ℕ × ℕ)} {p : ℕ × ℕ} (h : p ∈ l) :
    l.get? (idxOf l p) = some p := by
  induction l with
  | nil => cases h
  | cons c rest ih =>
    by_cases hc : c = p
    · subst hc; simp [idxOf]
    · rcases List.mem_cons.mp h with h1 | h2
      · exact absurd h1.symm hc
      · simp only [idxOf, if_neg hc]
        simpa using ih h2

theorem get?_idxOf {l : List (ℕ × ℕ)} (hn : l.Nodup) :
    ∀ {k : ℕ} {p : ℕ × ℕ}, l.get? k = some p → idxOf l p = k := by
  induction l with
  | nil => intro k p h; simp at h
  | cons c rest ih =>
    intro k p h
    rcases List.nodup_cons.mp hn with ⟨hc, hrest⟩
    cases k with
    | zero =>
      simp only [List.get?] at h
      injection h with h
      simp [idxOf, h]
    | succ k =>
      simp only [List.get?] at h
      have hp : p ∈ rest := List.get?_mem h
      have hne : c ≠ p := fun e => hc (e ▸ hp)
      simp [idxOf, if_neg hne, ih hrest h]

theorem unpackPair_packPair {n i j : ℕ} (hij : i ≤ j) (hj : j < n) :
    unpackPair n (packPair n i j) = some (i, j) := by
  have hmem : ((min i j, max i j) : ℕ × ℕ) ∈ coordsList n := by
    rw [coordsList_mem]
    constructor
    · exact min_le_max
    · simpa [max_eq_right hij] using hj
  have := idxOf_get? hmem
  rw [unpackPair, packPair, this, min_eq_left hij, max_eq_right hij]

theorem packPair_unpackPair {n k : ℕ} {p : ℕ × ℕ} (h : unpackPair n k = some p) :
    packPair n p.1 p.2 = k := by
  have hmem : p ∈ coordsList n := List.get?_mem h
  have hle : p.1 ≤ p.2 := ((coordsList_mem p).mp hmem).1
  rw [packPair, min_eq_left hle, max_eq_right hle]
  exact get?_idxOf (coordsList_nodup n) h

theorem packPair_swap (n i j : ℕ) : packPair n i j = packPair n j i := by
  rw [packPair, packPair, min_comm, max_comm]

/-- Symmetry of a float matrix. -/
def MatSymm (M : ℕ → ℕ → Option ℚ) : Prop := ∀ i j, M i j = M j i

theorem setMat_pair_symm {M : ℕ → ℕ → Option ℚ} (h : MatSymm M) (p q : ℕ) (x : Option ℚ) :
    MatSymm (setMat (setMat M p q x) q p x) := by
  intro i j
  simp only [setMat]
  by_cases h1 : i = q ∧ j = p
  · rw [if_pos h1]
    by_cases h2 : j = q ∧ i = p
    · rw [if_pos h2]
    · rw [if_neg h2, if_pos ⟨h1.2, h1.1⟩]
  · rw [if_neg h1]
    by_cases h2 : i = p ∧ j = q
    · rw [if_pos h2]
      by_cases h3 : j = q ∧ i = p
      · rw [if_pos h3]
      · exact absurd ⟨h2.2, h2.1⟩ h3
    · rw [if_neg h2]
      have h3 : ¬(j = q ∧ i = p) := fun hc => h2 ⟨hc.2, hc.1⟩
      have h4 : ¬(j = p ∧ i = q) := fun hc => h1 ⟨hc.2, hc.1⟩
      rw [if_neg h3, if_neg h4]
      exact h i j

theorem setMat_diag_symm {M : ℕ → ℕ → Option ℚ} (h : MatSymm M) (p : ℕ) (x : Option ℚ) :
    MatSymm (setMat M p p x) := by
  intro i j
  simp only [setMat]
  by_cases h1 : i = p ∧ j = p
  · rw [if_pos h1, if_pos ⟨h1.2, h1.1⟩]
  · have h2 : ¬(j = p ∧ i = p) := fun hc => h1 ⟨hc.2, hc.1⟩
    rw [if_neg h1, if_neg h2]
    exact h i j

theorem vecToMatRow_symm (v : ℕ → Option ℚ) (px : ℕ) :
    ∀ (k py ltr : ℕ) (M : ℕ → ℕ → Option ℚ), MatSymm M →
      MatSymm (vecToMatRow v px k py ltr M).2 := by
  intro k
  induction k with
  | zero => intro py ltr M h; exact h
  | succ k ih =>
    intro py ltr M h
    exact ih (py + 1) (ltr + 1) _ (setMat_pair_symm h px py (v ltr))

theorem vecToMatAll_symm (v : ℕ → Option ℚ) (n : ℕ) :
    ∀ (k px ltr : ℕ) (M : ℕ → ℕ → Option ℚ), MatSymm M →
      MatSymm (vecToMatAll v n k px ltr M) := by
  intro k
  induction k with
  | zero => intro px ltr M h; exact h
  | succ k ih =>
    intro px ltr M h
    exact ih (px + 1) _ _ (vecToMatRow_symm v px _ _ _ _ (setMat_diag_symm h px (v ltr)))

theorem results_vector_to_matrix_symm (v : ℕ → Option ℚ) (n : ℕ) :
    MatSymm (results_vector_to_matrix v n) :=
  vecToMatAll_symm v n n 0 0 _ (fun _ _ => rfl)

theorem get_richardson_coefficients_length (r : ℚ) (t : ℕ) :
    (get_richardson_coefficients r t).length = if t = 0 then 1 else t + 1 := by
  by_cases h : t = 0
  · simp [get_richardson_coefficients, h]
  · simp [get_richardson_coefficients, h]

theorem richardson_extrapolation_length (r fact eps : ℚ) (nmr_steps : ℕ)
    (h2 : 2 ≤ nmr_steps) (row : ℕ → Option ℚ) :
    (richardson_extrapolation r fact eps nmr_steps row).1.length
      = nmr_steps - (min nmr_steps 3 - 1) := by
  have hne : min nmr_steps 3 - 1 ≠ 0 := by omega
  have hlen : (get_richardson_coefficients r (min nmr_steps 3 - 1)).length
      = min nmr_steps 3 := by
    rw [get_richardson_coefficients_length, if_neg hne]
    omega
  simp only [richardson_extrapolation, List.length_take, List.length_map, List.length_range, hlen]
  omega

theorem wynn_extrapolate_length (eps tiny : ℚ) (derivs : List (Option ℚ)) :
    (wynn_extrapolate eps tiny derivs).1.length = derivs.length - 2 := by
  simp [wynn_extrapolate]

theorem qListMin_spec : ∀ (l : List ℚ) (m : ℚ), qListMin l = some m →
    m ∈ l ∧ ∀ y ∈ l, m ≤ y := by
  have key : ∀ (xs : List ℚ) (x : ℚ),
      xs.foldl min x ∈ x :: xs ∧ xs.foldl min x ≤ x ∧ ∀ y ∈ xs, xs.foldl min x ≤ y := by
    intro xs
    induction xs with
    | nil => intro x; exact ⟨List.mem_singleton.mpr rfl, le_refl x, by simp⟩
    | cons z zs ih =>
      intro x
      simp only [List.foldl_cons]
      obtain ⟨hmem, hlex, hall⟩ := ih (min x z)
      refine ⟨?_, ?_, ?_⟩
      · rcases List.mem_cons.mp hmem with h | h
        · rcases le_total x z with hxz | hzx
          · rw [h, min_eq_left hxz]
            exact List.mem_cons_self _ _
          · rw [h, min_eq_right hzx]
            exact List.mem_cons_of_mem _ (List.mem_cons_self _ _)
        · exact List.mem_cons_of_mem _ (List.mem_cons_of_mem _ h)
      · exact le_trans hlex (min_le_left x z)
      · intro y hy
        rcases List.mem_cons.mp hy with h | h
        · subst h; exact le_trans hlex (min_le_right x y)
        · exact hall y h
  intro l m h
  cases l with
  | nil => cases h
  | cons x xs =>
    injection h with h
    obtain ⟨hmem, hlex, hall⟩ := key xs x
    subst h
    refine ⟨hmem, ?_⟩
    intro y hy
    rcases List.mem_cons.mp hy with h | h
    · subst h; exact hlex
    · exact hall y h

theorem findFirst_spec (p : Option ℚ → Bool) :
    ∀ (l : List (Option ℚ)) (k : ℕ), findFirst p l = some k →
      k < l.length ∧ p (l.getD k none) = true ∧ ∀ i < k, p (l.getD i none) = false := by
  intro l
  induction l with
  | nil => intro k h; cases h
  | cons x xs ih =>
    intro k h
    by_cases hx : p x = true
    · simp only [findFirst, if_pos hx] at h
      injection h with h
      subst h
      exact ⟨Nat.succ_pos _, hx, by omega⟩
    · have hx2 : p x = false := by
        cases hpx : p x
        · rfl
        · exact absurd hpx hx
      simp only [findFirst, if_neg hx] at h
      cases k with
      | zero =>
        cases hf : findFirst p xs with
        | none => rw [hf] at h; cases h
        | some k2 =>
          rw [hf] at h
          simp only [Option.map_some'] at h
          injection h with h
          omega
      | succ k =>
        have h2 : findFirst p xs = some k := by
          cases hf : findFirst p xs
          · rw [hf] at h; cases h
          · rw [hf] at h
            simp only [Option.map_some'] at h
            injection h with h
            congr 1
            omega
        obtain ⟨hlt, hk, hbefore⟩ := ih k h2
        refine ⟨by simpa using hlt, by simpa using hk, ?_⟩
        intro i hi
        cases i with
        | zero => simpa using hx2
        | succ i => simpa using hbefore i (by omega)

theorem getD_mem_of_lt {l : List (Option ℚ)} {i : ℕ} (h : i < l.length) :
    l.getD i none ∈ l := by
  rw [List.getD_eq_getElem l none h]
  exact List.getElem_mem h

theorem mem_filterMap_id {l : List (Option ℚ)} {v : ℚ} :
    v ∈ l.filterMap id ↔ some v ∈ l := by
  rw [List.mem_filterMap]
  constructor
  · rintro ⟨a, ha, hav⟩
    cases a with
    | none => cases hav
    | some b =>
      simp only [id] at hav
      injection hav with hav
      subst hav; exact ha
  · intro h; exact ⟨some v, h, rfl⟩

/-- The first-argmin property asserted for `np.nanargmin`: index `k` holds a
non-NaN value that is a lower bound of all non-NaN entries, and no earlier
index attains it. -/
def isFirstArgmin (l : List (Option ℚ)) (k : ℕ) : Prop :=
  k < l.length ∧
  ∃ m : ℚ, l.getD k none = some m ∧
    (∀ i v, l.getD i none = some v → i < l.length → m ≤ v) ∧
    (∀ i < k, l.getD i none ≠ some m)

theorem nanargmin_spec {l : List (Option ℚ)} {k : ℕ} (h : nanargmin l = some k) :
    isFirstArgmin l k := by
  rw [nanargmin] at h
  cases hm : qListMin (l.filterMap id) with
  | none => rw [hm] at h; cases h
  | some m =>
    rw [hm] at h
    obtain ⟨hmem, hall⟩ := qListMin_spec _ _ hm
    obtain ⟨hlt, hk, hbefore⟩ := findFirst_spec _ l k h
    refine ⟨hlt, m, ?_, ?_, ?_⟩
    · exact of_decide_eq_true hk
    · intro i v hv hi
      exact hall v (mem_filterMap_id.mpr (hv ▸ getD_mem_of_lt hi))
    · intro i hi
      intro hc
      have := hbefore i hi
      rw [hc] at this
      simp at this

/-- Claim C2: the final Hessian matrix produced from the lower-triangular
result vector is exactly symmetric (both entries of every off-diagonal pair
are written from the same linear index), the packing of an unordered
parameter pair into the linear derivative index and the unpacking back are
mutually inverse over the lower-triangular domain, and swapped pairs map to
the same linear index. -/
theorem hessian_symmetry_and_packing (n : ℕ) (v : ℕ → Option ℚ) (scalings : ℕ → ℚ)
    (i j : ℕ) :
    finalize_derivatives scalings n v i j = finalize_derivatives scalings n v j i
    ∧ results_vector_to_matrix v n i j = results_vector_to_matrix v n j i
    ∧ (i ≤ j → j < n → unpackPair n (packPair n i j) = some (i, j))
    ∧ packPair n i j = packPair n j i
    ∧ (∀ k < (coordsList n).length,
        ∃ p : ℕ × ℕ, unpackPair n k = some p ∧ packPair n p.1 p.2 = k) := by
  refine ⟨?_, results_vector_to_matrix_symm v n i j,
    fun h1 h2 => unpackPair_packPair h1 h2, packPair_swap n i j, ?_⟩
  · unfold finalize_derivatives
    rw [results_vector_to_matrix_symm v n i j, mul_comm]
  · intro k hk
    have hget : (coordsList n).get? k = some ((coordsList n).get ⟨k, hk⟩) :=
      List.get?_eq_get hk
    exact ⟨(coordsList n).get ⟨k, hk⟩, hget, packPair_unpackPair hget⟩

theorem hessian_symmetry_and_packing_witness :
    unpackPair 3 (packPair 3 0 2) = some (0, 2) ∧ packPair 3 0 2 = packPair 3 2 0 := by
  have h := hessian_symmetry_and_packing 3 (fun _ => some 0) (fun _ => 1) 0 2
  exact ⟨h.2.2.1 (by decide) (by decide), h.2.2.2.1⟩

/-- A concrete model configuration whose use-bounds flag is set while both
side flags are unset, exposing the divergence between the code's `else`
branch and the specification's "if neither, use `model_max_step` unclipped"
step rule. -/
def mC3 : NumDiffModel :=
  { use_bounds := fun _ => true
    use_lower := fun _ => false
    use_upper := fun _ => false
    max_step := fun _ => 2
    scaling := fun _ => 1 }

/-- Claim C3, counterexample: at `x = 5`, bounds `[4, 100]`, scaling `1` and
`max_step = 2`, with the use-bounds flag set but neither side flag set, the
code clips the step to the two-sided clearance `1` while the claimed rule
returns `max_step = 2` unclipped. -/
theorem initial_step_size_counterexample :
    get_initial_step_size mC3 (fun _ _ => 5) (fun _ _ => 4) (fun _ _ => 100) 0 0 = 1
    ∧ spec_initial_step_size mC3 (fun _ _ => 5) (fun _ _ => 4) (fun _ _ => 100) 0 0 = 2
    ∧ (1 : ℚ) ≠ 2 := by
  refine ⟨?_, ?_, by norm_num⟩
  · norm_num [get_initial_step_size, mC3]
  · norm_num [spec_initial_step_size, mC3]

/-- Claim C3, amended: the code's initial step equals the claimed rule in
every case except that a parameter whose use-bounds flag is set with neither
side flag set is clipped by the two-sided minimum clearance (as if both sides
were active); `max_step` is unclipped exactly when the use-bounds flag is
false. -/
theorem initial_step_size_amended (m : NumDiffModel) (params : ℕ → ℕ → ℚ)
    (lower upper : ℕ → ℕ → ℚ) (i ind : ℕ) :
    get_initial_step_size m params lower upper i ind
      = amended_initial_step_size m params lower upper i ind := by
  unfold get_initial_step_size amended_initial_step_size
  cases hb : m.use_bounds ind <;> cases hu : m.use_upper ind <;>
    cases hl : m.use_lower ind <;>
      simp [hb, hu, hl, min_comm]

/-- Claim C4: for at least two steps, the number of candidates returned by
the Richardson stage is `nmr_steps - (coefficient_length - 1)` where the
coefficient vector is built with `min(nmr_steps, 3) - 1` extrapolation terms,
and the Wynn stage always returns exactly two fewer candidates than it
receives. -/
theorem extrapolation_candidate_counts (nmr_steps : ℕ) (h2 : 2 ≤ nmr_steps)
    (r fact eps tiny : ℚ) (row : ℕ → Option ℚ) (derivs : List (Option ℚ)) :
    (richardson_extrapolation r fact eps nmr_steps row).1.length
      = nmr_steps - ((get_richardson_coefficients r (min nmr_steps 3 - 1)).length - 1)
    ∧ (wynn_extrapolate eps tiny derivs).1.length = derivs.length - 2 := by
  constructor
  · rw [richardson_extrapolation_length r fact eps nmr_steps h2 row,
      get_richardson_coefficients_length, if_neg (by omega)]
    omega
  · exact wynn_extrapolate_length eps tiny derivs

theorem extrapolation_candidate_counts_witness :
    (richardson_extrapolation 2 13 (1 / 1000) 5 (fun s => some s)).1.length
      = 5 - ((get_richardson_coefficients 2 (min 5 3 - 1)).length - 1)
    ∧ (wynn_extrapolate (1 / 1000) (1 / 1000000) [some 1, some 2, some 3]).1.length
      = [some 1, some 2, some 3].length - 2 :=
  extrapolation_candidate_counts 5 (by decide) 2 13 (1 / 1000) (1 / 1000000)
    (fun s => some s) [some 1, some 2, some 3]

/-- Claim C7: evaluating `_generate_grid_points` at a configuration where the
bound check rejects every candidate step (so no admissible first step exists
for parameter 0 within the ten halvings), the function still reports success:
the returned flag is `true` — its `first_step_found` variable is initialised
to `true` and never set to `false`, contradicting its own documented
contract of returning `false` when no suitable step exists — and the first
step-row entry is left at the host-initialised `0` while the later rows
receive the halved, still inadmissible, step. -/
theorem generate_grid_points_never_fails :
    (generate_grid_points (fun _ _ _ => false) (fun _ => 5) (fun _ => 1) (fun _ => 2)
      2 1 2 (fun _ _ => 0)).1 = true
    ∧ (generate_grid_points (fun _ _ _ => false) (fun _ => 5) (fun _ => 1) (fun _ => 2)
      2 1 2 (fun _ _ => 0)).2 0 0 = 0
    ∧ (generate_grid_points (fun _ _ _ => false) (fun _ => 5) (fun _ => 1) (fun _ => 2)
      2 1 2 (fun _ _ => 0)).2 1 0 = 1 / 1024 := by
  refine ⟨?_, ?_, ?_⟩ <;>
    · simp only [generate_grid_points, grid_params, grid_halving, List.range,
        List.range.loop, List.range', List.foldl, Bool.false_eq_true, if_false,
        Bool.not_false, Bool.not_true, ite_false, ite_true]
      try simp only [setStep]
      try norm_num

/-- Claim C1: with a single step the returned Hessian is the finalized raw
central-difference tensor at step index 0 (no extrapolation), and with two or
three steps it is the finalized first Richardson candidate, the Wynn stage
never entering the computation. -/
theorem few_steps_skip_acceleration (f : List ℚ → Option ℚ)
    (transform : List ℚ → List ℚ) (m : NumDiffModel) (lower upper : ℕ → ℕ → ℚ)
    (parameters : List ℚ ⊕ List (List ℚ)) (r : ℚ) (offset : Option ℕ)
    (fact eps tiny : ℚ) :
    numerical_hessian f transform m lower upper parameters r 1 offset fact eps tiny
      = some (fun p => finalize_derivatives m.scaling
          ((normalized_parameters parameters).headD []).length
          (fun d => compute_derivatives f transform m (normalized_parameters parameters)
            lower upper r offset p d 0))
    ∧ ∀ nmr_steps, nmr_steps = 2 ∨ nmr_steps = 3 →
        numerical_hessian f transform m lower upper parameters r nmr_steps offset fact eps tiny
          = some (fun p => finalize_derivatives m.scaling
              ((normalized_parameters parameters).headD []).length
              (fun d => (richardson_extrapolation r fact eps nmr_steps
                  (fun s => compute_derivatives f transform m (normalized_parameters parameters)
                    lower upper r offset p d s)).1.getD 0 none)) := by
  constructor
  · rfl
  · rintro nmr_steps (rfl | rfl) <;> rfl

theorem few_steps_skip_acceleration_witness :
    numerical_hessian (fun _ => some 1) id
      ⟨fun _ => false, fun _ => false, fun _ => false, fun _ => 1, fun _ => 1⟩
      (fun _ _ => 0) (fun _ _ => 1) (Sum.inl [1]) 2 2 none 13 (1 / 1000) (1 / 1000000)
      = some (fun p => finalize_derivatives
          (NumDiffModel.scaling ⟨fun _ => false, fun _ => false, fun _ => false, fun _ => 1, fun _ => 1⟩)
          ((normalized_parameters (Sum.inl [1])).headD []).length
          (fun d => (richardson_extrapolation 2 13 (1 / 1000) 2
              (fun s => compute_derivatives (fun _ => some 1) id
                ⟨fun _ => false, fun _ => false, fun _ => false, fun _ => 1, fun _ => 1⟩
                (normalized_parameters (Sum.inl [1])) (fun _ _ => 0) (fun _ _ => 1)
                2 none p d s)).1.getD 0 none)) :=
  (few_steps_skip_acceleration (fun _ => some 1) id
    ⟨fun _ => false, fun _ => false, fun _ => false, fun _ => 1, fun _ => 1⟩
    (fun _ _ => 0) (fun _ _ => 1) (Sum.inl [1]) 2 none 13 (1 / 1000) (1 / 1000000)).2
    2 (Or.inl rfl)

/-- Claim C9: a 1-dimensional parameters array of length `p` is treated as a
single problem instance; the call returns exactly what it returns for the
corresponding `(1, p)` matrix. -/
theorem one_dim_parameters_single_problem (f : List ℚ → Option ℚ)
    (transform : List ℚ → List ℚ) (m : NumDiffModel) (lower upper : ℕ → ℕ → ℚ)
    (v : List ℚ) (r : ℚ) (nmr_steps : ℕ) (offset : Option ℕ) (fact eps tiny : ℚ) :
    numerical_hessian f transform m lower upper (Sum.inl v) r nmr_steps offset fact eps tiny
      = numerical_hessian f transform m lower upper (Sum.inr [v]) r nmr_steps offset
          fact eps tiny := rfl

/-- Claim C5, amended: the Wynn stage runs at most once.  With exactly four
steps the Richardson stage leaves two candidates, Wynn is skipped, and those
two candidates reach the selector; with five steps the single Wynn pass
leaves one candidate and the pipeline returns it before any selection; with
six or more steps the selector receives exactly the output of one Wynn pass
over the Richardson candidates — `n - 4` candidates, which for `n ≥ 7`
exceeds two: the pass is never repeated. -/
theorem wynn_single_pass (n : ℕ) (h4 : 4 ≤ n) (r fact eps tiny : ℚ)
    (D : ℕ → ℕ → ℕ → Option ℚ) :
    (n = 4 → selector_input n r fact eps tiny D
        = some (fun p d => (richardson_extrapolation r fact eps n (fun s => D p d s)).1))
    ∧ (n = 5 → selector_input n r fact eps tiny D = none)
    ∧ (6 ≤ n → selector_input n r fact eps tiny D
        = some (fun p d => (wynn_extrapolate eps tiny
            (richardson_extrapolation r fact eps n (fun s => D p d s)).1).1)
        ∧ ∀ p d, (wynn_extrapolate eps tiny
            (richardson_extrapolation r fact eps n (fun s => D p d s)).1).1.length
              = n - 4) := by
  have hrich : ∀ p d, (richardson_extrapolation r fact eps n (fun s => D p d s)).1.length
      = n - 2 := by
    intro p d
    rw [richardson_extrapolation_length r fact eps n (by omega)]
    omega
  have hwynn : ∀ p d, (wynn_extrapolate eps tiny
      (richardson_extrapolation r fact eps n (fun s => D p d s)).1).1.length = n - 4 := by
    intro p d
    rw [wynn_extrapolate_length, hrich p d]
    omega
  refine ⟨?_, ?_, ?_⟩
  · rintro rfl
    simp only [selector_input, if_neg (by omega : ¬(4 = 1)), if_neg (by omega : ¬(4 ≤ 3)),
      hrich 0 0]
    norm_num [hrich 0 0]
  · rintro rfl
    simp only [selector_input, if_neg (by omega : ¬(5 = 1)), if_neg (by omega : ¬(5 ≤ 3))]
    rw [hrich 0 0]
    norm_num [hwynn 0 0]
  · intro h6
    refine ⟨?_, hwynn⟩
    simp only [selector_input, if_neg (by omega : ¬(n = 1)), if_neg (by omega : ¬(n ≤ 3))]
    rw [hrich 0 0]
    rw [decide_eq_true (show 2 < n - 2 by omega)]
    simp only [if_true, ite_true]
    rw [if_neg]
    rw [hwynn 0 0]
    omega

/-- Claim C5, counterexample: with the claim's stated rule the candidate list
reaching the selector would always have at most two entries ("repeat until at
most 2 remain"), but running the pipeline stages with seven steps hands the
selector three candidates — the single Wynn pass is not repeated. -/
theorem wynn_not_repeated_counterexample :
    (selector_input 7 2 13 (1 / 1000) (1 / 1000000)
        (fun _ _ s => some ((s : ℚ) * s))).map (fun g => (g 0 0).length) = some 3
    ∧ 2 < 3 := by
  refine ⟨?_, by omega⟩
  have hrich : (richardson_extrapolation 2 13 (1 / 1000) 7
      (fun s => (fun (_ _ s2 : ℕ) => some ((s2 : ℚ) * s2)) 0 0 s)).1.length = 5 := by
    rw [richardson_extrapolation_length 2 13 (1 / 1000) 7 (by omega)]
    omega
  have hwynn : ∀ (p d : ℕ), (wynn_extrapolate (1 / 1000) (1 / 1000000)
      (richardson_extrapolation 2 13 (1 / 1000) 7
        (fun s => (fun (_ _ s2 : ℕ) => some ((s2 : ℚ) * s2)) p d s)).1).1.length = 3 := by
    intro p d
    rw [wynn_extrapolate_length, richardson_extrapolation_length 2 13 (1 / 1000) 7 (by omega)]
    omega
  simp only [selector_input, if_neg (by omega : ¬(7 = 1)), if_neg (by omega : ¬(7 ≤ 3))]
  rw [hrich, decide_eq_true (show 2 < 5 by omega)]
  simp only [ite_true]
  rw [if_neg (by rw [hwynn 0 0]; omega)]
  simp only [Option.map_some']
  rw [hwynn 0 0]

theorem wynn_single_pass_witness :
    selector_input 5 2 13 (1 / 1000) (1 / 1000000) (fun _ _ s => some ((s : ℚ) + 1)) = none :=
  (wynn_single_pass 5 (by omega) 2 13 (1 / 1000) (1 / 1000000)
    (fun _ _ s => some ((s : ℚ) + 1))).2.1 rfl

/-- Claim C8: when every error candidate of an entry is NaN, the selector
forces the first candidate of the derivatives and errors arrays to `0` as a
temporary sentinel (visible in the post-call state of the mutated inputs),
but the finally returned derivative and error for that entry are NaN, not
`0`. -/
theorem all_nan_entry_restored_to_nan (nP nD : ℕ)
    (derivatives errors : ℕ → ℕ → List (Option ℚ)) (res : SelectorResult)
    (h : median_outlier_extrapolation nP nD derivatives errors = some res)
    (i j : ℕ) (hnan : all_nan_row (errors i j) = true) :
    res.derivsFinal i j = none ∧ res.errorsFinal i j = none
    ∧ res.derivsPost i j = (derivatives i j).set 0 (some 0)
    ∧ res.errorsPost i j
        = List.zipWith nAdd ((errors i j).set 0 (some 0))
            (median_outlier_errors_row ((derivatives i j).set 0 (some 0))) := by
  rw [median_outlier_extrapolation] at h
  split at h
  · injection h with h
    subst h
    refine ⟨?_, ?_, ?_, ?_⟩
    · simp only [hnan, ite_true, if_pos]
    · simp only [hnan, ite_true, if_pos]
    · simp only [selector_derivs1, hnan, ite_true]
    · simp only [selector_errors2, selector_derivs1, hnan, ite_true]
  · cases h

theorem all_nan_entry_restored_to_nan_witness :
    (median_outlier_extrapolation 1 1 (fun _ _ => [none, none])
        (fun _ _ => [none, none])).elim False
      (fun res => res.derivsFinal 0 0 = none ∧ res.errorsFinal 0 0 = none
        ∧ res.derivsPost 0 0 = ([none, none] : List (Option ℚ)).set 0 (some 0)
        ∧ res.errorsPost 0 0
            = List.zipWith nAdd (([none, none] : List (Option ℚ)).set 0 (some 0))
                (median_outlier_errors_row (([none, none] : List (Option ℚ)).set 0 (some 0)))) := by
  have hs : (median_outlier_extrapolation 1 1 (fun _ _ => ([none, none] : List (Option ℚ)))
      (fun _ _ => ([none, none] : List (Option ℚ)))).isSome = true := by
    norm_num [median_outlier_extrapolation, all_nan_row, median_outlier_errors_row,
      nanpercentile, sortFinite, insortQ, percentileOfSorted, List.filterMap, id, List.foldr,
      List.getD_cons_zero, List.getD_cons_succ, nAbs, nSub, nAdd, nMul, nLt, nLe, nCMul, nCDiv,
      nBoolMul, abs_of_nonneg, abs_of_nonpos, nanargmin, qListMin, findFirst, List.zipWith,
      Option.isNone, List.foldl, List.set, List.all, List.range, List.range.loop]
  cases h : median_outlier_extrapolation 1 1 (fun _ _ => ([none, none] : List (Option ℚ)))
      (fun _ _ => ([none, none] : List (Option ℚ))) with
  | none => rw [h] at hs; cases hs
  | some res =>
    simp only [Option.elim]
    exact all_nan_entry_restored_to_nan 1 1 (fun _ _ => [none, none])
      (fun _ _ => [none, none]) res h 0 0 rfl

/-- Claim C10: `_median_outlier_extrapolation` mutates its inputs in place.
The post-call state of the errors array is the (possibly sentinel-forced)
input with the outlier penalties added, the post-call derivatives array has
its first candidate overwritten with `0` on all-NaN-error rows, and on a
concrete input with an outlier the post-call errors differ from the passed
errors: the inputs are not left unchanged. -/
theorem selector_mutates_inputs :
    (∀ (nP nD : ℕ) (derivatives errors : ℕ → ℕ → List (Option ℚ)) (res : SelectorResult),
      median_outlier_extrapolation nP nD derivatives errors = some res →
      ∀ i j,
        res.derivsPost i j
          = (if all_nan_row (errors i j) then (derivatives i j).set 0 (some 0)
             else derivatives i j)
        ∧ res.errorsPost i j
          = List.zipWith nAdd
              (if all_nan_row (errors i j) then (errors i j).set 0 (some 0) else errors i j)
              (median_outlier_errors_row
                (if all_nan_row (errors i j) then (derivatives i j).set 0 (some 0)
                 else derivatives i j)))
    ∧ (median_outlier_extrapolation 1 1 (fun _ _ => [some 1, some 1, some 1, some 50])
        (fun _ _ => [some 1, some 1, some 1, some 1])).map (fun res => res.errorsPost 0 0)
        = some [some 1, some 1, some 1, some 50]
    ∧ ([some 1, some 1, some 1, some 50] : List (Option ℚ))
        ≠ [some 1, some 1, some 1, some 1] := by
  have hchar : ∀ (nP nD : ℕ) (derivatives errors : ℕ → ℕ → List (Option ℚ))
      (res : SelectorResult),
      median_outlier_extrapolation nP nD derivatives errors = some res →
      ∀ i j,
        res.derivsPost i j
          = (if all_nan_row (errors i j) then (derivatives i j).set 0 (some 0)
             else derivatives i j)
        ∧ res.errorsPost i j
          = List.zipWith nAdd
              (if all_nan_row (errors i j) then (errors i j).set 0 (some 0) else errors i j)
              (median_outlier_errors_row
                (if all_nan_row (errors i j) then (derivatives i j).set 0 (some 0)
                 else derivatives i j)) := by
    intro nP nD derivatives errors res h i j
    rw [median_outlier_extrapolation] at h
    split at h
    · injection h with h
      subst h
      exact ⟨rfl, rfl⟩
    · cases h
  have hsort : sortFinite [some 1, some 1, some 1, some 50] = [1, 1, 1, 50] := by
    norm_num [sortFinite, List.filterMap, id, insortQ, List.foldr]
  have hp25 : nanpercentile 25 [some 1, some 1, some 1, some 50] = some 1 := by
    simp only [nanpercentile, hsort]
    norm_num [percentileOfSorted, List.getD_cons_zero, List.getD_cons_succ]
  have hp50 : nanpercentile 50 [some 1, some 1, some 1, some 50] = some 1 := by
    simp only [nanpercentile, hsort]
    norm_num [percentileOfSorted, List.getD_cons_zero, List.getD_cons_succ]
  have hp75 : nanpercentile 75 [some 1, some 1, some 1, some 50] = some (53 / 4) := by
    simp only [nanpercentile, hsort]
    norm_num [percentileOfSorted, List.getD_cons_zero, List.getD_cons_succ,
      show ((2 : ℤ)).toNat = 2 from rfl, List.getElem_cons_zero, List.getElem_cons_succ]
  have hpen : median_outlier_errors_row [some 1, some 1, some 1, some 50]
      = [some 0, some 0, some 0, some 49] := by
    simp only [median_outlier_errors_row, hp25, hp50, hp75]
    norm_num [nAbs, nSub, nAdd, nLt, nCMul, nCDiv, nBoolMul, abs_of_nonneg, abs_of_nonpos]
  have hnan : all_nan_row ([some 1, some 1, some 1, some 1] : List (Option ℚ)) = false := rfl
  have herr2 : List.zipWith nAdd
      ([some 1, some 1, some 1, some 1] : List (Option ℚ)) [some 0, some 0, some 0, some 49]
      = [some 1, some 1, some 1, some 50] := by
    norm_num [List.zipWith, nAdd]
  have hee : selector_errors2 (fun _ _ => [some 1, some 1, some 1, some 50])
      (fun _ _ => [some 1, some 1, some 1, some 1]) 0 0
      = [some 1, some 1, some 1, some 50] := by
    simp only [selector_errors2, selector_derivs1, hnan, Bool.false_eq_true, if_false,
      ite_false, hpen]
    exact herr2
  have harg : (nanargmin [some 1, some 1, some 1, some (50 : ℚ)]).isSome = true := by
    norm_num [nanargmin, qListMin, findFirst, List.filterMap, id, List.foldl]
  have hsome : (median_outlier_extrapolation 1 1
      (fun _ _ => [some 1, some 1, some 1, some 50])
      (fun _ _ => [some 1, some 1, some 1, some 1])).isSome = true := by
    rw [median_outlier_extrapolation]
    rw [if_pos]
    · rfl
    · simp only [show List.range 1 = [0] from rfl, List.all_cons, List.all_nil,
        Bool.and_true, hee]
      exact harg
  refine ⟨hchar, ?_, ?_⟩
  · cases h : median_outlier_extrapolation 1 1 (fun _ _ => [some 1, some 1, some 1, some 50])
        (fun _ _ => [some 1, some 1, some 1, some 1]) with
    | none => rw [h] at hsome; cases hsome
    | some res =>
      have hmut := (hchar 1 1 _ _ res h 0 0).2
      simp only [h, Option.map_some']
      rw [hmut, hnan]
      simp only [Bool.false_eq_true, if_false, ite_false]
      rw [hpen, herr2]
  · intro hc
    have h3 : ([some 1, some 1, some 1, some 50] : List (Option ℚ)).getD 3 none
        = [some 1, some 1, some 1, some 1].getD 3 none := by rw [hc]
    simp only [List.getD_cons_succ, List.getD_cons_zero] at h3
    injection h3 with h3
    norm_num at h3

/-- Claim C6, counterexample: with two candidates `1` and `21/20` tied at the
equal minimum penalized error `5`, `_median_outlier_extrapolation` selects
the first candidate `1` (`np.nanargmin` takes the first minimum), while the
claimed median-index tie-break — the rule of `Extrapolate._get_arg_min`,
which here returns flat index `1` — selects `21/20`. -/
theorem selection_tie_break_counterexample :
    (median_outlier_extrapolation 1 1 (fun _ _ => [some 1, some (21 / 20)])
        (fun _ _ => [some 5, some 5])).map (fun r => r.derivsFinal 0 0) = some (some 1)
    ∧ get_arg_min [[some 5], [some 5]] 1 = [1]
    ∧ ([some 1, some (21 / 20)] : List (Option ℚ)).getD 1 none = some (21 / 20)
    ∧ some (1 : ℚ) ≠ some (21 / 20) := by
  have hnanC : all_nan_row ([some 5, some 5] : List (Option ℚ)) = false := rfl
  have hpenC : median_outlier_errors_row [some 1, some (21 / 20)] = [some 0, some 0] := by
    norm_num [median_outlier_errors_row, nanpercentile, sortFinite, insortQ,
      percentileOfSorted, List.filterMap, id, List.foldr, List.getD_cons_zero,
      List.getD_cons_succ, nAbs, nSub, nAdd, nLt, nCMul, nCDiv, nBoolMul,
      abs_of_nonneg, abs_of_nonpos]
  have heeC : selector_errors2 (fun _ _ => [some 1, some (21 / 20)])
      (fun _ _ => [some 5, some 5]) 0 0 = [some 5, some 5] := by
    simp only [selector_errors2, selector_derivs1, hnanC, Bool.false_eq_true, if_false,
      ite_false, hpenC]
    norm_num [List.zipWith, nAdd]
  have hargC : nanargmin [some 5, some (5 : ℚ)] = some 0 := by
    norm_num [nanargmin, qListMin, findFirst, List.filterMap, id, List.foldl]
  have hcondC : ((List.range 1).all fun i => (List.range 1).all
      fun j => (nanargmin (selector_errors2 (fun _ _ => [some 1, some (21 / 20)])
        (fun _ _ => [some 5, some 5]) i j)).isSome) = true := by
    simp only [show List.range 1 = [0] from rfl, List.all_cons, List.all_nil,
      Bool.and_true, heeC, hargC]
    rfl
  refine ⟨?_, ?_, rfl, ?_⟩
  · rw [median_outlier_extrapolation, if_pos hcondC]
    simp only [Option.map_some']
    simp only [hnanC, Bool.false_eq_true, if_false, ite_false, heeC, hargC]
    simp only [selector_derivs1, hnanC, Bool.false_eq_true, if_false, ite_false]
    rfl
  · norm_num [get_arg_min, errColumn, minIndices, nanargmin, qListMin, findFirst,
      List.filterMap, id, List.foldl, List.range, List.range.loop, List.getD_cons_zero,
      List.getD_cons_succ, List.filter, List.any, Option.isNone]
  · intro hc
    injection hc with hc
    norm_num at hc

/-- Claim C6, amended: in `_median_outlier_extrapolation` the selected
candidate per entry is the one at the first index attaining the minimum
outlier-penalized error (`np.nanargmin` breaks ties by the lowest index, not
the median index); the median-index tie-break — the middle element of the
list of equal-minimum candidates — is the rule of the host-side helper
`Extrapolate._get_arg_min` of the mapping variant. -/
theorem best_estimate_selection_rule :
    (∀ (nP nD : ℕ) (derivatives errors : ℕ → ℕ → List (Option ℚ)) (res : SelectorResult),
      median_outlier_extrapolation nP nD derivatives errors = some res →
      ∀ i j, i < nP → j < nD →
        ∃ k, nanargmin (res.errorsPost i j) = some k
          ∧ isFirstArgmin (res.errorsPost i j) k
          ∧ (all_nan_row (errors i j) = false →
              res.derivsFinal i j = (res.derivsPost i j).getD k none))
    ∧ (∀ (errs : List (List (Option ℚ))) (ncols c : ℕ), c < ncols →
        (∀ c2, c2 < ncols → (nanargmin (errColumn errs c2)).isSome = true) →
        ∃ mval, qListMin ((errColumn errs c).filterMap id) = some mval
          ∧ (get_arg_min errs ncols).getD c 0
              = (minIndices (errColumn errs c) mval).getD
                  ((minIndices (errColumn errs c) mval).length / 2) 0 * ncols + c
          ∧ (errColumn errs c).getD
              ((minIndices (errColumn errs c) mval).getD
                ((minIndices (errColumn errs c) mval).length / 2) 0) none = some mval) := by
  constructor
  · intro nP nD derivatives errors res h i j hi hj
    rw [median_outlier_extrapolation] at h
    split at h
    · rename_i hcond
      injection h with h
      subst h
      have h1 := List.all_eq_true.mp hcond i (List.mem_range.mpr hi)
      have h2 := List.all_eq_true.mp h1 j (List.mem_range.mpr hj)
      obtain ⟨k, hk⟩ := Option.isSome_iff_exists.mp h2
      refine ⟨k, hk, nanargmin_spec hk, ?_⟩
      intro hnanF
      simp only [hnanF, Bool.false_eq_true, if_false, ite_false, hk]
    · cases h
  · intro errs ncols c hc hall
    have hsome := hall c hc
    rw [nanargmin] at hsome
    cases hq : qListMin ((errColumn errs c).filterMap id) with
    | none => rw [hq] at hsome; cases hsome
    | some mval =>
      have hne : (minIndices (errColumn errs c) mval) ≠ [] := by
        obtain ⟨hmem, -⟩ := qListMin_spec _ _ hq
        have hmem2 : some mval ∈ errColumn errs c := mem_filterMap_id.mp hmem
        obtain ⟨n, hn, hval⟩ := List.getElem_of_mem hmem2
        have hmemf : n ∈ minIndices (errColumn errs c) mval := by
          rw [minIndices, List.mem_filter]
          refine ⟨List.mem_range.mpr hn, ?_⟩
          rw [decide_eq_true_eq, List.getD_eq_getElem _ none hn]
          exact hval
        intro he
        rw [he] at hmemf
        cases hmemf
      have hlen : 0 < (minIndices (errColumn errs c) mval).length :=
        List.length_pos.mpr hne
      have hmid : (minIndices (errColumn errs c) mval).getD
          ((minIndices (errColumn errs c) mval).length / 2) 0
            ∈ minIndices (errColumn errs c) mval := by
        rw [List.getD_eq_getElem _ 0 (by omega)]
        exact List.getElem_mem _
      have hmidval : (errColumn errs c).getD
          ((minIndices (errColumn errs c) mval).getD
            ((minIndices (errColumn errs c) mval).length / 2) 0) none = some mval := by
        rw [minIndices, List.mem_filter] at hmid
        exact of_decide_eq_true hmid.2
      refine ⟨mval, rfl, ?_, hmidval⟩
      rw [get_arg_min, if_neg ?_]
      · have hclen : c < ((List.range ncols).map (fun c2 =>
            match qListMin ((errColumn errs c2).filterMap id) with
            | none => 0
            | some mval2 =>
              let idx := minIndices (errColumn errs c2) mval2
              (idx.getD (idx.length / 2) 0) * ncols + c2)).length := by
          simpa using hc
        rw [List.getD_eq_getElem _ 0 hclen, List.getElem_map, List.getElem_range, hq]
      · intro hany
        obtain ⟨c2, hmem2, hnone⟩ := List.any_eq_true.mp hany
        have := hall c2 (List.mem_range.mp hmem2)
        rw [Option.isNone_iff_eq_none] at hnone
        rw [hnone] at this
        cases this

theorem best_estimate_selection_rule_witness :
    (median_outlier_extrapolation 1 1 (fun _ _ => [some 2, some 9])
        (fun _ _ => [some 4, some 7])).elim False
      (fun res => ∃ k, nanargmin (res.errorsPost 0 0) = some k
        ∧ isFirstArgmin (res.errorsPost 0 0) k
        ∧ (all_nan_row ((fun (_ _ : ℕ) => [some (4 : ℚ), some 7]) 0 0) = false →
            res.derivsFinal 0 0 = (res.derivsPost 0 0).getD k none)) := by
  have hnanW : all_nan_row ([some 4, some 7] : List (Option ℚ)) = false := rfl
  have hpenW : median_outlier_errors_row [some 2, some 9] = [some 0, some 0] := by
    norm_num [median_outlier_errors_row, nanpercentile, sortFinite, insortQ,
      percentileOfSorted, List.filterMap, id, List.foldr, List.getD_cons_zero,
      List.getD_cons_succ, nAbs, nSub, nAdd, nLt, nCMul, nCDiv, nBoolMul,
      abs_of_nonneg, abs_of_nonpos]
  have heeW : selector_errors2 (fun _ _ => [some 2, some 9])
      (fun _ _ => [some 4, some 7]) 0 0 = [some 4, some 7] := by
    simp only [selector_errors2, selector_derivs1, hnanW, Bool.false_eq_true, if_false,
      ite_false, hpenW]
    norm_num [List.zipWith, nAdd]
  have hargW : (nanargmin [some 4, some (7 : ℚ)]).isSome = true := by
    norm_num [nanargmin, qListMin, findFirst, List.filterMap, id, List.foldl]
  have hsomeW : (median_outlier_extrapolation 1 1 (fun _ _ => [some 2, some 9])
      (fun _ _ => [some 4, some 7])).isSome = true := by
    rw [median_outlier_extrapolation, if_pos]
    · rfl
    · simp only [show List.range 1 = [0] from rfl, List.all_cons, List.all_nil,
        Bool.and_true, heeW]
      exact hargW
  cases h : median_outlier_extrapolation 1 1 (fun _ _ => [some 2, some 9])
      (fun _ _ => [some 4, some 7]) with
  | none => rw [h] at hsomeW; cases hsomeW
  | some res =>
    simp only [Option.elim]
    exact best_estimate_selection_rule.1 1 1 (fun _ _ => [some 2, some 9])
      (fun _ _ => [some 4, some 7]) res h 0 0 (by omega) (by omega)

theorem selector_mutates_inputs_witness :
    (median_outlier_extrapolation 1 1 (fun _ _ => ([none] : List (Option ℚ)))
        (fun _ _ => ([none] : List (Option ℚ)))).elim False
      (fun res =>
        res.derivsPost 0 0
          = (if all_nan_row ((fun (_ _ : ℕ) => ([none] : List (Option ℚ))) 0 0) then
              (([none] : List (Option ℚ))).set 0 (some 0)
            else (fun (_ _ : ℕ) => ([none] : List (Option ℚ))) 0 0)
        ∧ res.errorsPost 0 0
          = List.zipWith nAdd
              (if all_nan_row ((fun (_ _ : ℕ) => ([none] : List (Option ℚ))) 0 0) then
                (([none] : List (Option ℚ))).set 0 (some 0)
              else (fun (_ _ : ℕ) => ([none] : List (Option ℚ))) 0 0)
              (median_outlier_errors_row
                (if all_nan_row ((fun (_ _ : ℕ) => ([none] : List (Option ℚ))) 0 0) then
                  (([none] : List (Option ℚ))).set 0 (some 0)
                else (fun (_ _ : ℕ) => ([none] : List (Option ℚ))) 0 0))) := by
  have hpenN : median_outlier_errors_row [some 0] = [some 0] := by
    norm_num [median_outlier_errors_row, nanpercentile, sortFinite, insortQ,
      percentileOfSorted, List.filterMap, id, List.foldr, List.getD_cons_zero,
      nAbs, nSub, nAdd, nLt, nCMul, nCDiv, nBoolMul, abs_of_nonneg, abs_of_nonpos]
  have heeN : selector_errors2 (fun _ _ => ([none] : List (Option ℚ)))
      (fun _ _ => ([none] : List (Option ℚ))) 0 0 = [some 0] := by
    simp only [selector_errors2, selector_derivs1,
      show all_nan_row ([none] : List (Option ℚ)) = true from rfl, ite_true,
      show (([none] : List (Option ℚ)).set 0 (some 0)) = [some 0] from rfl, hpenN]
    norm_num [List.zipWith, nAdd]
  have hsomeN : (median_outlier_extrapolation 1 1 (fun _ _ => ([none] : List (Option ℚ)))
      (fun _ _ => ([none] : List (Option ℚ)))).isSome = true := by
    rw [median_outlier_extrapolation, if_pos]
    · rfl
    · simp only [show List.range 1 = [0] from rfl, List.all_cons, List.all_nil,
        Bool.and_true, heeN]
      norm_num [nanargmin, qListMin, findFirst, List.filterMap, id, List.foldl]
  cases h : median_outlier_extrapolation 1 1 (fun _ _ => ([none] : List (Option ℚ)))
      (fun _ _ => ([none] : List (Option ℚ))) with
  | none => rw [h] at hsomeN; cases hsomeN
  | some res =>
    simp only [Option.elim]
    exact selector_mutates_inputs.1 1 1 (fun _ _ => [none]) (fun _ _ => [none]) res h 0 0
